import Mathlib

/-!
Shallow embedding of the fast_presburger dual-representation integer type.

The embedding follows the C++ sources:
* src/include/Math.h      : overflow-checked word primitives and the
                            ceilDiv / floorDiv / mod conventions on int64_t;
* src/include/MPInt.h     : the tagged dispatcher MPInt (small = int64 fast
                            path, large = SlowMPInt fallback) and its
                            arithmetic operators and math helpers;
* src/src/SlowMPInt.cpp   : the GMP-backed arbitrary-precision fallback;
* src/src/MPInt.cpp       : hash_value dispatch for MPInt.

Machine integers are modelled as Int with explicit two's-complement
truncation (wrap64) where the C++ code can overflow.  The GMP mpz_t value
of a SlowMPInt is modelled as an unbounded Int; the GMP functions used by
the sources map as follows: mpz_add/sub/mul are exact, mpz_tdiv_q is
Int.tdiv (truncating), mpz_fdiv_q is Int.fdiv (floor), mpz_cdiv_q is
ceiling division, mpz_mod is Int.emod (remainder always non-negative, the
sign of the divisor being ignored), mpz_gcd is Int.gcd, mpz_neg is
negation, mpz_cmp is comparison.
-/

namespace Presburger

/-- Smallest int64_t value, -2^63. -/
def wordMin : Int := -(2 ^ 63)

/-- Largest int64_t value, 2^63 - 1. -/
def wordMax : Int := 2 ^ 63 - 1

/-- The value v is representable as an int64_t. -/
def inRange (v : Int) : Prop := wordMin ≤ v ∧ v ≤ wordMax

instance (v : Int) : Decidable (inRange v) :=
  inferInstanceAs (Decidable (_ ∧ _))

/-- Two's-complement truncation of an unbounded integer to 64 bits; models
what the hardware stores when an int64_t operation wraps. -/
def wrap64 (x : Int) : Int := (x + 2 ^ 63) % (2 ^ 64) - 2 ^ 63

/-- Signed 64-bit negation (unary minus on int64_t); wraps at wordMin. -/
def neg64 (x : Int) : Int := wrap64 (-x)

/-- Signed 64-bit addition with two's-complement wrap-around. -/
def add64 (a b : Int) : Int := wrap64 (a + b)

/-- Hardware signed 64-bit division, rounding toward zero; the single
overflowing case wordMin / -1 wraps. -/
def div64 (a b : Int) : Int := wrap64 (Int.tdiv a b)

/-- Math.h AddOverflow / the add builtin used by detail::addOverflow in
MPInt.h: the pair is (overflow flag, truncated result).  The flag is true
exactly when the mathematical sum does not fit in int64_t. -/
def addOverflow (x y : Int) : Bool × Int :=
  (decide (¬ inRange (x + y)), wrap64 (x + y))

/-- Math.h SubOverflow / the sub builtin used by detail::subOverflow. -/
def subOverflow (x y : Int) : Bool × Int :=
  (decide (¬ inRange (x - y)), wrap64 (x - y))

/-- The mul builtin used by detail::mulOverflow in MPInt.h. -/
def mulOverflow (x y : Int) : Bool × Int :=
  (decide (¬ inRange (x * y)), wrap64 (x * y))

/-- Conversion of an Int in [0, 2^64) to the signed value the bit pattern
denotes; models the unsigned-to-signed cast in Math.h MulOverflow. -/
def toSigned (u : Nat) : Int :=
  if u < 2 ^ 63 then (u : Int) else (u : Int) - 2 ^ 64

/-- Conversion int64_t to uint64_t: reduce mod 2^64; models
static_cast of a signed word to the unsigned type. -/
def uns (x : Int) : Nat := (x % (2 ^ 64)).toNat

/-- Math.h MulOverflow, the portable checked multiply: magnitudes are
computed in unsigned arithmetic as 0 - cast(x) for a negative operand, the
product is taken mod 2^64, the result sign is the XOR of the operand
signs, and overflow is detected by comparing one magnitude against the
largest representable magnitude (2^63 for a negative result, 2^63 - 1 for
a non-negative one) divided by the other magnitude. -/
def MulOverflow (X Y : Int) : Bool × Int :=
  let UX : Nat := if X < 0 then (2 ^ 64 - uns X) % 2 ^ 64 else uns X
  let UY : Nat := if Y < 0 then (2 ^ 64 - uns Y) % 2 ^ 64 else uns Y
  let UResult : Nat := (UX * UY) % 2 ^ 64
  let IsNegative : Bool := decide (X < 0) != decide (Y < 0)
  let Result : Int :=
    if IsNegative then toSigned ((2 ^ 64 - UResult) % 2 ^ 64)
    else toSigned UResult
  if UX = 0 ∨ UY = 0 then (false, Result)
  else if IsNegative then (decide (UX > 2 ^ 63 / UY), Result)
  else (decide (UX > (2 ^ 63 - 1) / UY), Result)

/-- Math.h ceilDiv on int64_t, as written in the source with every
intermediate int64_t operation modelled with two's-complement wrap:
let x = (rhs > 0) ? -1 : 1 in
(lhs != 0 && (lhs > 0) == (rhs > 0)) ? ((lhs + x) / rhs) + 1
                                     : -(-lhs / rhs). -/
def ceilDiv64 (lhs rhs : Int) : Int :=
  let x : Int := if 0 < rhs then -1 else 1
  if lhs ≠ 0 ∧ ((0 < lhs) ↔ (0 < rhs)) then
    add64 (div64 (add64 lhs x) rhs) 1
  else
    neg64 (div64 (neg64 lhs) rhs)

/-- Math.h floorDiv on int64_t, as written in the source:
let x = (rhs < 0) ? 1 : -1 in
(lhs != 0 && (lhs < 0) != (rhs < 0)) ? -((-lhs + x) / rhs) - 1
                                     : lhs / rhs. -/
def floorDiv64 (lhs rhs : Int) : Int :=
  let x : Int := if rhs < 0 then 1 else -1
  if lhs ≠ 0 ∧ ¬ ((lhs < 0) ↔ (rhs < 0)) then
    add64 (neg64 (div64 (add64 (neg64 lhs) x) rhs)) (-1)
  else
    div64 lhs rhs

/-- Math.h mod on int64_t: lhs % rhs < 0 ? lhs % rhs + rhs : lhs % rhs,
where % is the C truncated remainder (Int.tmod). -/
def mod64 (lhs rhs : Int) : Int :=
  if Int.tmod lhs rhs < 0 then add64 (Int.tmod lhs rhs) rhs
  else Int.tmod lhs rhs

end Presburger

namespace Presburger

/-! SlowMPInt operations (src/src/SlowMPInt.cpp), value level.  A
SlowMPInt is a GMP mpz_t holding an unbounded integer, modelled as Int. -/

/-- SlowMPInt operator/ : mpz_tdiv_q, quotient rounded toward zero. -/
def Slow.div (a b : Int) : Int := Int.tdiv a b

/-- SlowMPInt operator% : mpz_mod, whose result is always non-negative
(the sign of the divisor is ignored); this is Int.emod. -/
def Slow.rem (a b : Int) : Int := Int.emod a b

/-- SlowMPInt ceilDiv: if rhs == -1 then -lhs else mpz_cdiv_q (quotient
rounded toward +infinity). -/
def Slow.ceilDiv (a b : Int) : Int :=
  if b = -1 then -a else -(Int.fdiv (-a) b)

/-- SlowMPInt floorDiv: if rhs == -1 then -lhs else mpz_fdiv_q (quotient
rounded toward -infinity). -/
def Slow.floorDiv (a b : Int) : Int :=
  if b = -1 then -a else Int.fdiv a b

/-- SlowMPInt mod free function: lhs % rhs < 0 ? lhs % rhs + rhs else
lhs % rhs, where % is SlowMPInt operator% (Int.emod). -/
def Slow.mod (a b : Int) : Int :=
  if Slow.rem a b < 0 then Slow.rem a b + b else Slow.rem a b

/-- SlowMPInt gcd: mpz_gcd, the non-negative greatest common divisor. -/
def Slow.gcd (a b : Int) : Int := (Int.gcd a b : Int)

/-! The MPInt tagged dispatcher (src/include/MPInt.h).  A value holds
either the int64_t fast path (small) or a SlowMPInt (large); the
discriminant is the constructor. -/

/-- The MPInt union + holdsLarge discriminant: small carries the int64_t
valSmall, large carries the SlowMPInt valLarge (modelled by its value). -/
inductive MPInt where
  | small : Int → MPInt
  | large : Int → MPInt
deriving DecidableEq, Repr

/-- MPInt::isSmall, the negation of the holdsLarge discriminant. -/
def MPInt.isSmall : MPInt → Bool
  | .small _ => true
  | .large _ => false

/-- MPInt::isLarge, the holdsLarge discriminant. -/
def MPInt.isLarge : MPInt → Bool
  | .small _ => false
  | .large _ => true

/-- The explicit conversion operator SlowMPInt(): a small value is
promoted by SlowMPInt(getSmall()), a large value is returned as is.  This
is the numeric value the MPInt denotes. -/
def MPInt.toSlow : MPInt → Int
  | .small v => v
  | .large v => v

/-- MPInt representation invariant: a small value always fits int64_t. -/
def MPInt.WF : MPInt → Prop
  | .small v => inRange v
  | .large _ => True

/-- detail::divWouldOverflow: division overflows only when negating the
minimal signed value, x == INT64_MIN && y == -1. -/
def divWouldOverflow (x y : Int) : Bool :=
  decide (x = wordMin) && decide (y = -1)

/-- MPInt operator== : small/small compares the int64 words, otherwise
both operands are converted to SlowMPInt and compared there. -/
def MPInt.beq : MPInt → MPInt → Bool
  | .small a, .small b => decide (a = b)
  | x, y => decide (x.toSlow = y.toSlow)

/-- MPInt operator- (unary): a small value other than INT64_MIN negates on
the fast path; negating small INT64_MIN or a large value goes through
SlowMPInt negation and yields a large result. -/
def MPInt.neg : MPInt → MPInt
  | .small v => if v ≠ wordMin then .small (-v) else .large (-v)
  | .large v => .large (-v)

/-- MPInt operator+ : small/small uses the checked add and keeps the small
representation unless the flag reports overflow, in which case (and
whenever an operand is large) both operands are promoted and added as
SlowMPInt, giving a large result. -/
def MPInt.add : MPInt → MPInt → MPInt
  | .small a, .small b =>
      if (addOverflow a b).1 then .large (a + b) else .small (a + b)
  | x, y => .large (x.toSlow + y.toSlow)

/-- MPInt operator- (binary), same protocol as operator+. -/
def MPInt.sub : MPInt → MPInt → MPInt
  | .small a, .small b =>
      if (subOverflow a b).1 then .large (a - b) else .small (a - b)
  | x, y => .large (x.toSlow - y.toSlow)

/-- MPInt operator*, same protocol as operator+. -/
def MPInt.mul : MPInt → MPInt → MPInt
  | .small a, .small b =>
      if (mulOverflow a b).1 then .large (a * b) else .small (a * b)
  | x, y => .large (x.toSlow * y.toSlow)

/-- MPInt operator/ : small/small first checks divWouldOverflow and in
that single case returns -*this (which promotes); otherwise it divides the
int64 words (rounding toward zero).  With a large operand it divides the
promoted SlowMPInt values. -/
def MPInt.div : MPInt → MPInt → MPInt
  | .small a, .small b =>
      if divWouldOverflow a b then MPInt.neg (.small a)
      else .small (Int.tdiv a b)
  | x, y => .large (Slow.div x.toSlow y.toSlow)

/-- MPInt operator/= : same cases as operator/, writing the result back. -/
def MPInt.divAssign : MPInt → MPInt → MPInt
  | .small a, .small b =>
      if divWouldOverflow a b then MPInt.neg (.small a)
      else .small (Int.tdiv a b)
  | x, y => .large (Slow.div x.toSlow y.toSlow)

/-- MPInt::divByPositive: asserts o > 0 and divides without the
divWouldOverflow check. -/
def MPInt.divByPositive : MPInt → MPInt → MPInt
  | .small a, .small b => .small (Int.tdiv a b)
  | x, y => .large (Slow.div x.toSlow y.toSlow)

/-- MPInt::divByPositiveInPlace: the in-place form of divByPositive. -/
def MPInt.divByPositiveInPlace : MPInt → MPInt → MPInt
  | .small a, .small b => .small (Int.tdiv a b)
  | x, y => .large (Slow.div x.toSlow y.toSlow)

/-- MPInt operator% : small/small uses the C truncated remainder of the
int64 words; otherwise the promoted SlowMPInt remainder (mpz_mod). -/
def MPInt.rem : MPInt → MPInt → MPInt
  | .small a, .small b => .small (Int.tmod a b)
  | x, y => .large (Slow.rem x.toSlow y.toSlow)

/-- MPInt abs free function: x >= 0 ? x : -x. -/
def MPInt.abs (x : MPInt) : MPInt :=
  if 0 ≤ x.toSlow then x else x.neg

/-- MPInt ceilDiv free function: small/small checks divWouldOverflow (then
returns -lhs) and otherwise uses math::ceilDiv on the words; with a large
operand it uses SlowMPInt ceilDiv on the promoted values. -/
def MPInt.ceilDiv : MPInt → MPInt → MPInt
  | .small a, .small b =>
      if divWouldOverflow a b then MPInt.neg (.small a)
      else .small (ceilDiv64 a b)
  | x, y => .large (Slow.ceilDiv x.toSlow y.toSlow)

/-- MPInt floorDiv free function, same protocol as ceilDiv. -/
def MPInt.floorDiv : MPInt → MPInt → MPInt
  | .small a, .small b =>
      if divWouldOverflow a b then MPInt.neg (.small a)
      else .small (floorDiv64 a b)
  | x, y => .large (Slow.floorDiv x.toSlow y.toSlow)

/-- MPInt mod free function: small/small uses math::mod on the words,
otherwise SlowMPInt mod on the promoted values. -/
def MPInt.modF : MPInt → MPInt → MPInt
  | .small a, .small b => .small (mod64 a b)
  | x, y => .large (Slow.mod x.toSlow y.toSlow)

/-- MPInt gcd free function: small/small uses std::gcd on the int64 words
(the gcd of the absolute values), otherwise mpz_gcd on the promoted
values. -/
def MPInt.gcd : MPInt → MPInt → MPInt
  | .small a, .small b => .small ((Int.gcd a b : Int))
  | x, y => .large (Slow.gcd x.toSlow y.toSlow)

/-- MPInt lcm free function, exactly as in the source:
x = abs(a); y = abs(b); return (x * y) / gcd(x, y). -/
def MPInt.lcm (a b : MPInt) : MPInt :=
  MPInt.div (MPInt.mul a.abs b.abs) (MPInt.gcd a.abs b.abs)

/-! Hashing (src/src/MPInt.cpp and src/src/SlowMPInt.cpp).

std::hash of a SlowMPInt hashes the std::string_view over the limb words
of the stored mpz_t (abs(_mp_size) limbs) with std::hash of string_view,
then XORs the result with 1 when _mp_size is negative.  A canonical GMP
mpz_t determines its limb array uniquely from the absolute value of the
number (most significant limb non-zero), so the byte view hashed is a
fixed injective encoding of natAbs of the value; std::hash of string_view
is an external library function with unspecified algorithm, modelled as an
arbitrary function H over that encoding. -/

/-- std::hash of SlowMPInt: H applied to the limb encoding of the absolute
value (represented through natAbs, which the canonical limb view encodes
injectively), XOR 1 when the stored number is negative. -/
def Slow.hashValue (H : Nat → Nat) (v : Int) : Nat :=
  (H v.natAbs) ^^^ (if v < 0 then 1 else 0)

/-- Modelled from the spec: the int64_t overload of hash_value and the
hash_code type come from Utils.h, which is not among the sources; the spec
requires that hashing be stable for values equal under operator==
regardless of which representation is active, so the small-path hash of a
word is modelled as the hash the same value receives in the large
representation. -/
def hashValueInt64 (H : Nat → Nat) (v : Int) : Nat :=
  Slow.hashValue H v

/-- hash_value(const MPInt&) from src/src/MPInt.cpp: a small value is
hashed with the int64_t hash, a large value with the SlowMPInt hash. -/
def MPInt.hashValue (H : Nat → Nat) : MPInt → Nat
  | .small v => hashValueInt64 H v
  | .large v => Slow.hashValue H v

/-! GMP mpz_t initialization discipline (for the SlowMPInt copy
constructor, src/src/SlowMPInt.cpp line 27).  A fresh mpz_t member is
uninitialized storage; mpz_init must run before any other mpz function
may touch it, and mpz_set on an uninitialized target is undefined
behavior.  The model tracks that discipline: a cell is either uninit or
initialized with a value, and mpz_set reports failure (none) on an
uninitialized target. -/

/-- State of an mpz_t cell: raw uninitialized storage, or an initialized
integer. -/
inductive MpzCell where
  | uninit : MpzCell
  | ready : Int → MpzCell
deriving DecidableEq, Repr

/-- mpz_init: turns raw storage into an initialized cell holding 0. -/
def mpzInit : MpzCell := .ready 0

/-- mpz_set: stores src into dst; legal only on an initialized dst, so an
uninitialized target is the error case (undefined behavior in GMP). -/
def mpzSet (dst : MpzCell) (src : Int) : Option MpzCell :=
  match dst with
  | .uninit => none
  | .ready _ => some (.ready src)

/-- SlowMPInt copy constructor as written in the source: the body is only
mpz_set(this->val, val.val), applied to the freshly allocated (hence
uninitialized) member — there is no mpz_init call. -/
def Slow.copyCtor (src : Int) : Option MpzCell :=
  mpzSet .uninit src

/-- SlowMPInt(const mpz_t&) constructor, for contrast: mpz_init followed
by mpz_set, the discipline every other SlowMPInt constructor follows. -/
def Slow.ctorFromMpz (src : Int) : Option MpzCell :=
  mpzSet mpzInit src

/-- MPInt copy constructor: a small source is copied by copying the word;
a large source runs initLarge on a freshly-constructed object, which
placement-constructs a SlowMPInt with the SlowMPInt copy constructor. -/
def MPInt.copyCtor : MPInt → Option MPInt
  | .small v => some (.small v)
  | .large v =>
      match Slow.copyCtor v with
      | some (.ready w) => some (.large w)
      | _ => none

/-! Helper lemmas. -/

/-- Floor division with a negative divisor equals Euclidean division of
the negated operands. -/
theorem fdiv_neg_den (a b : Int) (hb : b < 0) :
    Int.fdiv a b = (-a) / (-b) := by
  cases b with
  | ofNat m => exact absurd hb (Int.not_lt.mpr (Int.ofNat_nonneg m))
  | negSucc n =>
      cases a with
      | ofNat ma =>
          cases ma with
          | zero =>
              show (0 : Int) = (0 : Int) / (-Int.negSucc n)
              exact (Int.zero_ediv _).symm
          | succ m => rfl
      | negSucc ma => rfl

/-- Truncating division of a dividend strictly inside the int64 range
stays strictly inside the range, for every divisor. -/
theorem tdiv_inRange {a : Int} (b : Int) (h1 : -(2 ^ 63) < a)
    (h2 : a < 2 ^ 63) :
    -(2 ^ 63) < Int.tdiv a b ∧ Int.tdiv a b < 2 ^ 63 := by
  have habs : (Int.tdiv a b).natAbs = a.natAbs / b.natAbs :=
    Int.natAbs_tdiv a b
  have hle : a.natAbs / b.natAbs ≤ a.natAbs := Nat.div_le_self _ _
  omega

/-- wrap64 is the identity on the int64 range. -/
theorem wrap64_id {x : Int} (h : inRange x) : wrap64 x = x := by
  have : (x + 2 ^ 63) % (2 ^ 64) = x + 2 ^ 63 := by
    apply Int.emod_eq_of_lt
    · simp only [inRange, wordMin, wordMax] at h
      omega
    · simp only [inRange, wordMin, wordMax] at h
      omega
  simp only [wrap64, this]
  omega

/-- The value of an MPInt negation is the exact negation. -/
theorem toSlow_neg (x : MPInt) : (MPInt.neg x).toSlow = -(x.toSlow) := by
  cases x with
  | small v =>
      simp only [MPInt.neg]
      split <;> rfl
  | large v => rfl

/-- The value of an MPInt product is the exact product. -/
theorem toSlow_mul (x y : MPInt) :
    (MPInt.mul x y).toSlow = x.toSlow * y.toSlow := by
  cases x with
  | small a =>
      cases y with
      | small b =>
          simp only [MPInt.mul]
          split <;> rfl
      | large b => rfl
  | large a => cases y <;> rfl

/-- The value of an MPInt quotient is the truncating quotient of the
values. -/
theorem toSlow_div (x y : MPInt) :
    (MPInt.div x y).toSlow = Int.tdiv x.toSlow y.toSlow := by
  cases x with
  | small a =>
      cases y with
      | small b =>
          simp only [MPInt.div]
          split
          · next hover =>
              simp only [divWouldOverflow, Bool.and_eq_true,
                decide_eq_true_eq] at hover
              obtain ⟨rfl, rfl⟩ := hover
              decide
          · rfl
      | large b => rfl
  | large a => cases y <;> rfl

/-- The value of an MPInt gcd is the gcd of the values. -/
theorem toSlow_gcd (x y : MPInt) :
    (MPInt.gcd x y).toSlow = (Int.gcd x.toSlow y.toSlow : Int) := by
  cases x <;> cases y <;> rfl

/-- The value of an MPInt abs is the absolute value. -/
theorem toSlow_abs (x : MPInt) : (MPInt.abs x).toSlow = |x.toSlow| := by
  simp only [MPInt.abs]
  split
  · next h => rw [abs_of_nonneg h]
  · next h => rw [toSlow_neg, abs_of_neg (by omega)]

/-- inRange unfolded to explicit bounds. -/
theorem inRange_iff {x : Int} : inRange x ↔ -(2 ^ 63) ≤ x ∧ x < 2 ^ 63 := by
  simp only [inRange, wordMin, wordMax]
  omega

/-- wrap64 on explicit in-range bounds. -/
theorem wrap64_eq {x : Int} (h1 : -(2 ^ 63) ≤ x) (h2 : x < 2 ^ 63) :
    wrap64 x = x := wrap64_id (inRange_iff.mpr ⟨h1, h2⟩)

/-- Hardware division of a dividend strictly inside the range never
wraps. -/
theorem div64_eq {a : Int} (b : Int) (h1 : -(2 ^ 63) < a) (h2 : a < 2 ^ 63) :
    div64 a b = Int.tdiv a b := by
  obtain ⟨l, u⟩ := tdiv_inRange b h1 h2
  exact wrap64_eq (by omega) u

/-- Truncated remainder commutes with negation of the dividend. -/
theorem neg_tmod_eq (a b : Int) : Int.tmod (-a) b = -(Int.tmod a b) := by
  have h1 := Int.tdiv_add_tmod a b
  have h2 := Int.tdiv_add_tmod (-a) b
  rw [Int.neg_tdiv] at h2
  linear_combination h1 + h2

/-- Lower bound of the truncated remainder for a positive divisor. -/
theorem tmod_gt_neg {a b : Int} (hb : 0 < b) : -b < Int.tmod a b := by
  rcases le_or_lt 0 a with ha | ha
  · have := Int.tmod_nonneg b ha
    omega
  · have h2 : Int.tmod (-a) b < b := Int.tmod_lt_of_pos (-a) hb
    have h3 := neg_tmod_eq a b
    omega

/-- Uniqueness of the Euclidean quotient. -/
theorem ediv_eq_of {a b q : Int} (r : Int) (hb : 0 < b)
    (heq : r + b * q = a) (h0 : 0 ≤ r) (h1 : r < b) :
    a / b = q := ((Int.ediv_emod_unique hb).mpr ⟨heq, h0, h1⟩).1

/-- Uniqueness of the Euclidean remainder. -/
theorem emod_eq_of {a b r : Int} (q : Int) (hb : 0 < b)
    (heq : r + b * q = a) (h0 : 0 ≤ r) (h1 : r < b) :
    a % b = r := ((Int.ediv_emod_unique hb).mpr ⟨heq, h0, h1⟩).2

/-- Truncating division of two non-positive operands as Euclidean
division of their negations. -/
theorem tdiv_both_nonpos {a b : Int} (ha : a ≤ 0) (hb : b ≤ 0) :
    Int.tdiv a b = (-a) / (-b) := by
  have h1 : Int.tdiv a b = -(Int.tdiv (-a) b) := by
    rw [← Int.neg_tdiv, neg_neg]
  have h2 : Int.tdiv (-a) b = -(Int.tdiv (-a) (-b)) := by
    rw [← Int.tdiv_neg, neg_neg]
  rw [h1, h2, neg_neg]
  exact Int.tdiv_eq_ediv (by omega) (by omega)

/-- Math.h mod agrees with the Euclidean remainder for a positive
in-range divisor, for every int64 dividend. -/
theorem mod64_correct {a b : Int} (hb : 0 < b) (hb2 : b < 2 ^ 63) :
    mod64 a b = a % b := by
  have htd := Int.tdiv_add_tmod a b
  have hub : Int.tmod a b < b := Int.tmod_lt_of_pos a hb
  have hlb : -b < Int.tmod a b := tmod_gt_neg hb
  unfold mod64
  split
  · next hneg =>
      rw [show add64 (Int.tmod a b) b = Int.tmod a b + b from
        wrap64_eq (by omega) (by omega)]
      exact (emod_eq_of (a.tdiv b - 1) hb (by linear_combination htd)
        (by omega) (by omega)).symm
  · next hpos =>
      push_neg at hpos
      exact (emod_eq_of (a.tdiv b) hb (by linear_combination htd)
        (by omega) (by omega)).symm

/-- Math.h floorDiv computes floor division for every dividend other
than INT64_MIN and every non-zero divisor: none of its intermediate
int64 operations wraps there. -/
theorem floorDiv64_correct {a b : Int} (ha1 : -(2 ^ 63) < a)
    (ha2 : a < 2 ^ 63) (hb : b ≠ 0) :
    floorDiv64 a b = Int.fdiv a b := by
  simp only [floorDiv64]
  rcases lt_trichotomy a 0 with haneg | rfl | hapos
  · rcases lt_or_gt_of_ne hb with hbneg | hbpos
    · rw [if_neg (by
        rintro ⟨h0, hiff⟩
        exact hiff (iff_of_true haneg hbneg))]
      rw [div64_eq b ha1 ha2, tdiv_both_nonpos (by omega) (by omega),
        fdiv_neg_den a b hbneg]
    · rw [if_pos ⟨by omega, by
        rintro hiff
        exact absurd (hiff.mp haneg) (by omega)⟩]
      rw [if_neg (by omega)]
      rw [show neg64 a = -a from wrap64_eq (by omega) (by omega)]
      rw [show add64 (-a) (-1) = -a - 1 from wrap64_eq (by omega) (by omega)]
      rw [div64_eq b (by omega) (by omega)]
      have hq := Int.ediv_add_emod (-a - 1) b
      have hq0 : 0 ≤ (-a - 1) % b := Int.emod_nonneg _ (by omega)
      have hq1 : (-a - 1) % b < b := Int.emod_lt_of_pos _ hbpos
      have hqle : (-a - 1) / b ≤ -a - 1 := Int.ediv_le_self b (by omega)
      have hqnn : 0 ≤ (-a - 1) / b := Int.ediv_nonneg (by omega) (by omega)
      rw [Int.tdiv_eq_ediv (by omega) (by omega)]
      rw [show neg64 ((-a - 1) / b) = -((-a - 1) / b) from
        wrap64_eq (by omega) (by omega)]
      rw [show add64 (-((-a - 1) / b)) (-1) = -((-a - 1) / b) - 1 from
        wrap64_eq (by omega) (by omega)]
      rw [Int.fdiv_eq_ediv a (by omega)]
      exact (ediv_eq_of (b - ((-a - 1) % b) - 1) hbpos
        (by linear_combination -hq) (by omega) (by omega)).symm
  · rw [if_neg (by rintro ⟨h0, _⟩; exact h0 rfl)]
    rw [div64_eq b (by omega) (by omega), Int.zero_tdiv, Int.zero_fdiv]
  · rcases lt_or_gt_of_ne hb with hbneg | hbpos
    · rw [if_pos ⟨by omega, by
        rintro hiff
        exact absurd (hiff.mpr hbneg) (by omega)⟩]
      rw [if_pos hbneg]
      rw [show neg64 a = -a from wrap64_eq (by omega) (by omega)]
      rw [show add64 (-a) 1 = -a + 1 from wrap64_eq (by omega) (by omega)]
      rw [div64_eq b (by omega) (by omega)]
      have hconv : Int.tdiv (-a + 1) b = (a - 1) / (-b) := by
        rw [show (-a + 1 : Int) = -(a - 1) by ring]
        rw [tdiv_both_nonpos (by omega) (by omega), neg_neg]
      rw [hconv]
      have hq := Int.ediv_add_emod (a - 1) (-b)
      have hq0 : 0 ≤ (a - 1) % (-b) := Int.emod_nonneg _ (by omega)
      have hq1 : (a - 1) % (-b) < -b := Int.emod_lt_of_pos _ (by omega)
      have hqle : (a - 1) / (-b) ≤ a - 1 := Int.ediv_le_self (-b) (by omega)
      have hqnn : 0 ≤ (a - 1) / (-b) := Int.ediv_nonneg (by omega) (by omega)
      rw [show neg64 ((a - 1) / (-b)) = -((a - 1) / (-b)) from
        wrap64_eq (by omega) (by omega)]
      rw [show add64 (-((a - 1) / (-b))) (-1) = -((a - 1) / (-b)) - 1 from
        wrap64_eq (by omega) (by omega)]
      rw [fdiv_neg_den a b hbneg]
      exact (ediv_eq_of ((-b) - ((a - 1) % (-b)) - 1) (by omega)
        (by linear_combination -hq) (by omega) (by omega)).symm
    · rw [if_neg (by
        rintro ⟨h0, hiff⟩
        exact hiff (iff_of_false (by omega) (by omega)))]
      rw [div64_eq b ha1 ha2, Int.tdiv_eq_ediv (by omega) (by omega),
        Int.fdiv_eq_ediv a (by omega)]

/-- Math.h ceilDiv computes ceiling division (stated as the negated
floor division of the negated dividend) for every dividend other than
INT64_MIN and every non-zero divisor. -/
theorem ceilDiv64_correct {a b : Int} (ha1 : -(2 ^ 63) < a)
    (ha2 : a < 2 ^ 63) (hb : b ≠ 0) :
    ceilDiv64 a b = -(Int.fdiv (-a) b) := by
  simp only [ceilDiv64]
  rcases lt_trichotomy a 0 with haneg | rfl | hapos
  · rcases lt_or_gt_of_ne hb with hbneg | hbpos
    · rw [if_pos ⟨by omega, iff_of_false (by omega) (by omega)⟩]
      rw [if_neg (by omega)]
      rw [show add64 a 1 = a + 1 from wrap64_eq (by omega) (by omega)]
      rw [div64_eq b (by omega) (by omega)]
      have hconv : Int.tdiv (a + 1) b = (-a - 1) / (-b) := by
        rw [show (a + 1 : Int) = -(-a - 1) by ring]
        rw [tdiv_both_nonpos (by omega) (by omega), neg_neg]
      rw [hconv]
      have hq := Int.ediv_add_emod (-a - 1) (-b)
      have hq0 : 0 ≤ (-a - 1) % (-b) := Int.emod_nonneg _ (by omega)
      have hq1 : (-a - 1) % (-b) < -b := Int.emod_lt_of_pos _ (by omega)
      have hqle : (-a - 1) / (-b) ≤ -a - 1 := Int.ediv_le_self (-b) (by omega)
      have hqnn : 0 ≤ (-a - 1) / (-b) := Int.ediv_nonneg (by omega) (by omega)
      rw [show add64 ((-a - 1) / (-b)) 1 = (-a - 1) / (-b) + 1 from
        wrap64_eq (by omega) (by omega)]
      rw [fdiv_neg_den (-a) b hbneg, neg_neg]
      have hkey : a / (-b) = -((-a - 1) / (-b)) - 1 :=
        ediv_eq_of ((-b) - ((-a - 1) % (-b)) - 1) (by omega)
          (by linear_combination -hq) (by omega) (by omega)
      rw [hkey]
      ring
    · rw [if_neg (by rintro ⟨h0, hiff⟩; exact absurd (hiff.mpr hbpos) (by omega))]
      rw [show neg64 a = -a from wrap64_eq (by omega) (by omega)]
      rw [div64_eq b (by omega) (by omega)]
      rw [Int.tdiv_eq_ediv (by omega) (by omega)]
      have hqle : (-a) / b ≤ -a := Int.ediv_le_self b (by omega)
      have hqnn : 0 ≤ (-a) / b := Int.ediv_nonneg (by omega) (by omega)
      rw [show neg64 ((-a) / b) = -((-a) / b) from
        wrap64_eq (by omega) (by omega)]
      rw [Int.fdiv_eq_ediv (-a) (by omega)]
  · rw [if_neg (by rintro ⟨h0, _⟩; exact h0 rfl)]
    rw [show neg64 0 = 0 from by decide]
    rw [div64_eq b (by omega) (by omega), Int.zero_tdiv]
    rw [show neg64 0 = 0 from by decide]
    rw [neg_zero, Int.zero_fdiv, neg_zero]
  · rcases lt_or_gt_of_ne hb with hbneg | hbpos
    · rw [if_neg (by rintro ⟨h0, hiff⟩; exact absurd (hiff.mp hapos) (by omega))]
      rw [show neg64 a = -a from wrap64_eq (by omega) (by omega)]
      rw [div64_eq b (by omega) (by omega)]
      have hconv : Int.tdiv (-a) b = (a) / (-b) := by
        rw [tdiv_both_nonpos (by omega) (by omega), neg_neg]
      rw [hconv]
      have hqle : a / (-b) ≤ a := Int.ediv_le_self (-b) (by omega)
      have hqnn : 0 ≤ a / (-b) := Int.ediv_nonneg (by omega) (by omega)
      rw [show neg64 (a / (-b)) = -(a / (-b)) from
        wrap64_eq (by omega) (by omega)]
      rw [fdiv_neg_den (-a) b hbneg, neg_neg]
    · rw [if_pos ⟨by omega, iff_of_true hapos hbpos⟩]
      rw [if_pos hbpos]
      rw [show add64 a (-1) = a - 1 from wrap64_eq (by omega) (by omega)]
      rw [div64_eq b (by omega) (by omega)]
      rw [Int.tdiv_eq_ediv (by omega) (by omega)]
      have hq := Int.ediv_add_emod (a - 1) b
      have hq0 : 0 ≤ (a - 1) % b := Int.emod_nonneg _ (by omega)
      have hq1 : (a - 1) % b < b := Int.emod_lt_of_pos _ hbpos
      have hqle : (a - 1) / b ≤ a - 1 := Int.ediv_le_self b (by omega)
      have hqnn : 0 ≤ (a - 1) / b := Int.ediv_nonneg (by omega) (by omega)
      rw [show add64 ((a - 1) / b) 1 = (a - 1) / b + 1 from
        wrap64_eq (by omega) (by omega)]
      rw [Int.fdiv_eq_ediv (-a) (by omega)]
      have hkey : (-a) / b = -((a - 1) / b) - 1 :=
        ediv_eq_of (b - ((a - 1) % b) - 1) hbpos
          (by linear_combination -hq) (by omega) (by omega)
      rw [hkey]
      ring

/-! Claim theorems. -/

/-- C6 counterexample: at dividend INT64_MIN and divisor 2, the internal
negation -lhs wraps, so math::ceilDiv returns 2^62 although the quotient
rounded toward positive infinity is -2^62; the claim quantified over
every 64-bit dividend is therefore false as stated. -/
theorem ceilDiv64_wordMin_counterexample :
    ceilDiv64 (-(2 ^ 63)) 2 = 2 ^ 62 ∧
    -(Int.fdiv (-(-(2 ^ 63))) 2) = -(2 ^ 62) ∧
    ceilDiv64 (-(2 ^ 63)) 2 ≠ -(Int.fdiv (-(-(2 ^ 63))) 2) := by decide

/-- C6 amended: for every int64 dividend other than INT64_MIN and every
non-zero int64 divisor, floorDiv rounds toward negative infinity and
ceilDiv rounds toward positive infinity; and for every int64 dividend
and positive divisor, mod is the Euclidean remainder: in [0, b) and
congruent to the dividend modulo b. -/
theorem divmod_conventions (a b : Int)
    (ha1 : -(2 ^ 63) ≤ a) (ha2 : a < 2 ^ 63)
    (hb1 : -(2 ^ 63) ≤ b) (hb2 : b < 2 ^ 63) (hb : b ≠ 0) :
    (a ≠ -(2 ^ 63) →
      floorDiv64 a b = Int.fdiv a b ∧ ceilDiv64 a b = -(Int.fdiv (-a) b)) ∧
    (0 < b → mod64 a b = a % b ∧ 0 ≤ mod64 a b ∧ mod64 a b < b ∧
      (a - mod64 a b) % b = 0) := by
  constructor
  · intro hmin
    exact ⟨floorDiv64_correct (by omega) ha2 hb,
      ceilDiv64_correct (by omega) ha2 hb⟩
  · intro hbpos
    have hm := mod64_correct (a := a) hbpos hb2
    refine ⟨hm, ?_, ?_, ?_⟩
    · rw [hm]; exact Int.emod_nonneg a (by omega)
    · rw [hm]; exact Int.emod_lt_of_pos a hbpos
    · rw [hm]
      have h := Int.ediv_add_emod a b
      rw [show a - a % b = b * (a / b) from by linear_combination -h]
      exact Int.mul_emod_right b (a / b)

/-- Witness for C6 at the claim's example values. -/
theorem divmod_conventions_witness :
    floorDiv64 (-7) 2 = -4 ∧ ceilDiv64 (-7) 2 = -3 ∧ mod64 (-7) 2 = 1 ∧
    floorDiv64 7 (-2) = -4 ∧ ceilDiv64 7 (-2) = -3 := by
  have h1 := divmod_conventions (-7) 2 (by decide) (by decide) (by decide)
    (by decide) (by decide)
  have h2 := divmod_conventions 7 (-2) (by decide) (by decide) (by decide)
    (by decide) (by decide)
  refine ⟨?_, ?_, ?_, ?_, ?_⟩
  · rw [(h1.1 (by decide)).1]; decide
  · rw [(h1.1 (by decide)).2]; decide
  · rw [(h1.2 (by decide)).1]; decide
  · rw [(h2.1 (by decide)).1]; decide
  · rw [(h2.1 (by decide)).2]; decide

/-- C1: the differential property fails for operator%.  At a = -7, b = 2
the fast path (both operands small) computes the C truncated remainder
-1, while the fallback path (both operands promoted to SlowMPInt) uses
mpz_mod and yields the non-negative remainder 1, so the two paths
disagree on an operand pair that is in the small-representable range and
is not the division special case. -/
theorem rem_fast_slow_divergence :
    MPInt.rem (.small (-7)) (.small 2) = .small (-1) ∧
    MPInt.rem (.large (-7)) (.large 2) = .large 1 ∧
    (MPInt.rem (.small (-7)) (.small 2)).toSlow ≠
      (MPInt.rem (.large (-7)) (.large 2)).toSlow := by decide

/-- C2: copying an MPInt that holds the large representation fails.  The
SlowMPInt copy constructor writes into its freshly allocated mpz_t with
mpz_set but never calls mpz_init on it, which is undefined behavior in
GMP, so the copy does not duplicate the backing storage; the mpz_t
conversion constructor, which does call mpz_init first, succeeds on the
same value. -/
theorem copyCtor_large_fails :
    MPInt.copyCtor (.large (2 ^ 63)) = none ∧
    Slow.copyCtor (2 ^ 63) = none ∧
    Slow.ctorFromMpz (2 ^ 63) = some (.ready (2 ^ 63)) ∧
    MPInt.copyCtor (.small 5) = some (.small 5) := by decide

/-- C4: dividing the MPInt holding INT64_MIN by the MPInt holding -1,
via operator/ or operator/=, produces exactly 2^63 stored in the large
representation. -/
theorem min_div_negOne_promotes :
    MPInt.div (.small (-(2 ^ 63))) (.small (-1)) = .large (2 ^ 63) ∧
    MPInt.divAssign (.small (-(2 ^ 63))) (.small (-1)) = .large (2 ^ 63) ∧
    (MPInt.div (.small (-(2 ^ 63))) (.small (-1))).isLarge = true := by
  decide

/-- C5: for every pair of int64 values, MPInt addition returns the exact
mathematical sum; the result stays small when the sum fits int64 and is
stored in the large representation when it does not. -/
theorem add_exact (a b : Int) (ha : inRange a) (hb : inRange b) :
    (MPInt.add (.small a) (.small b)).toSlow = a + b ∧
    (inRange (a + b) → MPInt.add (.small a) (.small b) = .small (a + b)) ∧
    (¬ inRange (a + b) → MPInt.add (.small a) (.small b) = .large (a + b)) := by
  refine ⟨?_, ?_, ?_⟩
  · simp only [MPInt.add]
    split <;> rfl
  · intro h
    simp [MPInt.add, addOverflow, h]
  · intro h
    simp [MPInt.add, addOverflow, h]

/-- Witness for C5 at the claim's example: INT64_MAX + INT64_MAX is the
exact sum 18446744073709551614 in the large representation. -/
theorem add_exact_witness :
    inRange 9223372036854775807 ∧
    (MPInt.add (.small 9223372036854775807)
      (.small 9223372036854775807)).toSlow = 18446744073709551614 ∧
    MPInt.add (.small 9223372036854775807) (.small 9223372036854775807)
      = .large 18446744073709551614 := by
  have h := add_exact 9223372036854775807 9223372036854775807
    (by decide) (by decide)
  refine ⟨by decide, ?_, ?_⟩
  · rw [h.1]; decide
  · rw [h.2.2 (by decide)]; decide

/-- C8: with a strictly positive divisor, divByPositive agrees with
operator/ and divByPositiveInPlace agrees with operator/=, even though
both variants skip the divWouldOverflow check. -/
theorem divByPositive_eq_div (x y : MPInt) (h : 0 < y.toSlow) :
    MPInt.divByPositive x y = MPInt.div x y ∧
    MPInt.divByPositiveInPlace x y = MPInt.divAssign x y := by
  cases x with
  | small a =>
      cases y with
      | small b =>
          have hy : 0 < b := h
          have hb : divWouldOverflow a b = false := by
            have : b ≠ -1 := by omega
            simp [divWouldOverflow, this]
          exact ⟨by simp [MPInt.divByPositive, MPInt.div, hb],
            by simp [MPInt.divByPositiveInPlace, MPInt.divAssign, hb]⟩
      | large b => exact ⟨rfl, rfl⟩
  | large a => cases y <;> exact ⟨rfl, rfl⟩

/-- Witness for C8 at a concrete input with a positive divisor. -/
theorem divByPositive_eq_div_witness :
    0 < (MPInt.small 3).toSlow ∧
    MPInt.divByPositive (.small (-7)) (.small 3)
      = MPInt.div (.small (-7)) (.small 3) ∧
    MPInt.divByPositive (.small (-7)) (.small 3) = .small (-2) := by
  have h := divByPositive_eq_div (.small (-7)) (.small 3) (by decide)
  exact ⟨by decide, h.1, by decide⟩

/-- C10: no binary arithmetic operation demotes: whenever either operand
holds the large representation, the result of +, -, *, / and % holds the
large representation. -/
theorem no_demotion (x y : MPInt) (h : x.isLarge = true ∨ y.isLarge = true) :
    (MPInt.add x y).isLarge = true ∧ (MPInt.sub x y).isLarge = true ∧
    (MPInt.mul x y).isLarge = true ∧ (MPInt.div x y).isLarge = true ∧
    (MPInt.rem x y).isLarge = true := by
  cases x with
  | small a =>
      cases y with
      | small b => simp [MPInt.isLarge] at h
      | large b => exact ⟨rfl, rfl, rfl, rfl, rfl⟩
  | large a => cases y <;> exact ⟨rfl, rfl, rfl, rfl, rfl⟩

/-- Witness for C10: adding large 5 and small 3 yields large 8, a value
that fits int64 yet keeps the large representation. -/
theorem no_demotion_witness :
    (MPInt.large 5).isLarge = true ∧
    (MPInt.add (.large 5) (.small 3)).isLarge = true ∧
    MPInt.add (.large 5) (.small 3) = .large 8 := by
  have h := no_demotion (.large 5) (.small 3) (Or.inl (by decide))
  exact ⟨by decide, h.1, by decide⟩

/-- C3: two MPInts equal under operator== receive the same hash,
whichever representation each one holds; the small-value hash is the
spec-modelled hashValueInt64 (Utils.h is not among the sources) and the
large-value hash is the limb hash from SlowMPInt.cpp, which depends only
on the numeric value of the canonical mpz_t. -/
theorem hashValue_stable (H : Nat → Nat) (x y : MPInt)
    (h : MPInt.beq x y = true) :
    MPInt.hashValue H x = MPInt.hashValue H y := by
  have hv : x.toSlow = y.toSlow := by
    cases x <;> cases y <;> simpa [MPInt.beq] using h
  cases x <;> cases y <;>
    simp only [MPInt.hashValue, hashValueInt64] <;>
    simp only [MPInt.toSlow] at hv <;> rw [hv]

/-- Witness for C3: the value 5 held small and held large compares equal
under operator== and hashes identically (with the identity standing in
for the unspecified byte-string hash). -/
theorem hashValue_stable_witness :
    MPInt.beq (.small 5) (.large 5) = true ∧
    MPInt.hashValue (fun n => n) (.small 5)
      = MPInt.hashValue (fun n => n) (.large 5) ∧
    MPInt.hashValue (fun n => n) (.small 5) = 5 := by
  refine ⟨by decide, hashValue_stable _ _ _ (by decide), by decide⟩

/-- C7: gcd(0,0) = 0; gcd(x,0) = x whenever x is non-negative (the
claim's precondition for gcd); and for every pair of MPInts not both
zero, of either sign, lcm(x,y) times gcd(|x|,|y|) equals |x*y|, i.e.
lcm(x,y) = |x*y| / gcd(|x|,|y|), through the dispatcher's promoting
multiplication and division. -/
theorem gcd_lcm_spec (x y : MPInt)
    (hnz : ¬ (x.toSlow = 0 ∧ y.toSlow = 0)) :
    (MPInt.gcd (.small 0) (.small 0)).toSlow = 0 ∧
    (0 ≤ x.toSlow → (MPInt.gcd x (.small 0)).toSlow = x.toSlow) ∧
    (MPInt.lcm x y).toSlow * (Int.gcd x.toSlow y.toSlow : Int)
      = |x.toSlow * y.toSlow| := by
  refine ⟨by decide, fun hx => ?_, ?_⟩
  · rw [toSlow_gcd]
    simp only [MPInt.toSlow, Int.gcd_zero_right]
    exact Int.natAbs_of_nonneg hx
  · have hval : (MPInt.lcm x y).toSlow
        = Int.tdiv (|x.toSlow| * |y.toSlow|)
            (Int.gcd x.toSlow y.toSlow : Int) := by
      simp only [MPInt.lcm]
      rw [toSlow_div, toSlow_mul, toSlow_gcd, toSlow_abs, toSlow_abs]
      simp [Int.gcd, Int.natAbs_abs]
    have hgpos : (0 : Int) < (Int.gcd x.toSlow y.toSlow : Int) := by
      have : 0 < Int.gcd x.toSlow y.toSlow :=
        Int.gcd_pos_iff.mpr (by tauto)
      omega
    have hdvd : (Int.gcd x.toSlow y.toSlow : Int) ∣ |x.toSlow| * |y.toSlow| := by
      rw [← abs_mul]
      exact (dvd_abs _ _).mpr (Dvd.dvd.mul_right Int.gcd_dvd_left _)
    rw [hval, abs_mul,
      Int.tdiv_eq_ediv (by positivity) (le_of_lt hgpos),
      Int.ediv_mul_cancel hdvd]

/-- Division of a natural number bound by a positive B: the quotient is
below A exactly when the dividend is below A * B. -/
theorem nat_div_lt_iff {A B M : Nat} (hB : 0 < B) :
    M / B < A ↔ M < A * B := by
  constructor
  · intro h
    by_contra hc
    push_neg at hc
    exact absurd ((Nat.le_div_iff_mul_le hB).mpr hc) (Nat.not_le.mpr h)
  · intro h
    by_contra hc
    push_neg at hc
    exact absurd ((Nat.le_div_iff_mul_le hB).mp hc) (Nat.not_le.mpr h)

/-- The unsigned magnitude computed by MulOverflow (0 - cast(X) for a
negative X, cast(X) otherwise) is the absolute value of the operand. -/
theorem uns_mag {X : Int} (h1 : -(2 ^ 63) ≤ X) (h2 : X < 2 ^ 63) :
    (if X < 0 then (2 ^ 64 - uns X) % 2 ^ 64 else uns X) = X.natAbs := by
  simp only [uns]
  split <;> omega

/-- C9: Math.h MulOverflow reports overflow exactly when the
mathematical product of the two int64 operands is not representable as
int64; the check compares a magnitude against the maximum representable
magnitude (2^63 for a negative result, 2^63 - 1 for a non-negative one)
divided by the other magnitude, with the result sign the XOR of the
operand signs. -/
theorem mulOverflow_correct (X Y : Int)
    (hX1 : -(2 ^ 63) ≤ X) (hX2 : X < 2 ^ 63)
    (hY1 : -(2 ^ 63) ≤ Y) (hY2 : Y < 2 ^ 63) :
    ((MulOverflow X Y).1 = true ↔ ¬ inRange (X * Y)) := by
  simp only [MulOverflow]
  rw [uns_mag hX1 hX2, uns_mag hY1 hY2]
  have hnabs : (X * Y).natAbs = X.natAbs * Y.natAbs := Int.natAbs_mul X Y
  rcases Decidable.em (X.natAbs = 0 ∨ Y.natAbs = 0) with hz | hz
  · have hXY : X * Y = 0 := by
      rcases hz with h | h
      · rw [Int.natAbs_eq_zero.mp h, zero_mul]
      · rw [Int.natAbs_eq_zero.mp h, mul_zero]
    rw [if_pos hz]
    norm_num [hXY, inRange, wordMin, wordMax]
  · push_neg at hz
    obtain ⟨hX0, hY0⟩ := hz
    have hYpos : 0 < Y.natAbs := by omega
    rw [if_neg (by tauto)]
    by_cases hXneg : X < 0 <;> by_cases hYneg : Y < 0
    · have hpos : 0 < X * Y :=
        mul_pos_of_neg_of_neg hXneg hYneg
      have hfold : (decide (X < 0) != decide (Y < 0)) = false := by
        simp [hXneg, hYneg]
      simp only [hfold, Bool.false_eq_true, if_false, decide_eq_true_eq]
      rw [gt_iff_lt, nat_div_lt_iff hYpos, ← hnabs]
      simp only [inRange, wordMin, wordMax]
      revert hpos
      generalize X * Y = Z
      intro hpos
      omega
    · have hneg : X * Y < 0 := mul_neg_of_neg_of_pos hXneg (by omega)
      have hfold : (decide (X < 0) != decide (Y < 0)) = true := by
        simp [hXneg, hYneg]
      simp only [hfold, if_true, decide_eq_true_eq]
      rw [gt_iff_lt, nat_div_lt_iff hYpos, ← hnabs]
      simp only [inRange, wordMin, wordMax]
      revert hneg
      generalize X * Y = Z
      intro hneg
      omega
    · have hneg : X * Y < 0 := mul_neg_of_pos_of_neg (by omega) hYneg
      have hfold : (decide (X < 0) != decide (Y < 0)) = true := by
        simp [hXneg, hYneg]
      simp only [hfold, if_true, decide_eq_true_eq]
      rw [gt_iff_lt, nat_div_lt_iff hYpos, ← hnabs]
      simp only [inRange, wordMin, wordMax]
      revert hneg
      generalize X * Y = Z
      intro hneg
      omega
    · have hpos : 0 < X * Y := mul_pos (by omega) (by omega)
      have hfold : (decide (X < 0) != decide (Y < 0)) = false := by
        simp [hXneg, hYneg]
      simp only [hfold, Bool.false_eq_true, if_false, decide_eq_true_eq]
      rw [gt_iff_lt, nat_div_lt_iff hYpos, ← hnabs]
      simp only [inRange, wordMin, wordMax]
      revert hpos
      generalize X * Y = Z
      intro hpos
      omega

/-- Witness for C9: 2^32 * 2^31 = 2^63 overflows and is flagged;
2^31 * 2^31 = 2^62 fits and is not flagged. -/
theorem mulOverflow_correct_witness :
    (MulOverflow (2 ^ 32) (2 ^ 31)).1 = true ∧
    ¬ inRange ((2 ^ 32 : Int) * 2 ^ 31) ∧
    (MulOverflow (2 ^ 31) (2 ^ 31)).1 = false := by
  have h := mulOverflow_correct (2 ^ 32) (2 ^ 31)
    (by decide) (by decide) (by decide) (by decide)
  exact ⟨h.mpr (by decide), by decide, by decide⟩

/-- Witness for C7: x = 2^40, y = 2^40 + 1 are coprime, their product
2^80 + 2^40 overflows int64, and lcm(x,y) is exactly that product stored
in the large representation; the lcm identity is also instantiated at
the negative operand -6 with 4 (lcm = 12), and gcd(12, 0) = 12
discharges the gcd conjunct's non-negativity hypothesis. -/
theorem gcd_lcm_spec_witness :
    ¬ ((MPInt.small (2 ^ 40)).toSlow = 0 ∧
        (MPInt.small (2 ^ 40 + 1)).toSlow = 0) ∧
    (MPInt.lcm (.small (2 ^ 40)) (.small (2 ^ 40 + 1))).toSlow
        * (Int.gcd (MPInt.small (2 ^ 40)).toSlow
            (MPInt.small (2 ^ 40 + 1)).toSlow : Int)
      = |(MPInt.small (2 ^ 40)).toSlow * (MPInt.small (2 ^ 40 + 1)).toSlow| ∧
    (MPInt.lcm (.small (2 ^ 40)) (.small (2 ^ 40 + 1))).toSlow
      = 2 ^ 80 + 2 ^ 40 ∧
    (MPInt.lcm (.small (2 ^ 40)) (.small (2 ^ 40 + 1))).isLarge = true ∧
    (MPInt.lcm (.small (-6)) (.small 4)).toSlow
        * (Int.gcd (MPInt.small (-6)).toSlow (MPInt.small 4).toSlow : Int)
      = |(MPInt.small (-6)).toSlow * (MPInt.small 4).toSlow| ∧
    (MPInt.lcm (.small (-6)) (.small 4)).toSlow = 12 ∧
    (MPInt.gcd (.small 12) (.small 0)).toSlow = 12 := by
  have h1 := gcd_lcm_spec (.small (2 ^ 40)) (.small (2 ^ 40 + 1)) (by decide)
  have h2 := gcd_lcm_spec (.small (-6)) (.small 4) (by decide)
  have h3 := gcd_lcm_spec (.small 12) (.small 1) (by decide)
  exact ⟨by decide, h1.2.2, by decide, by decide, h2.2.2, by decide,
    h3.2.1 (by decide)⟩

end Presburger
